import Mathlib

/-!
Verification of the notescan color-reduction engine.

The Go source (shrink.go, pixel.go, convert.go) is shallowly embedded here.
Go `float64` values are modelled as exact rationals (ℚ): every claim settled
below is structural (which branch is taken, which fields are read, which list
element is produced), or involves only arithmetic that is exact in binary64
(sums of squares of integers below 2^16), so the rational model agrees with
the float model on the facts proved.  Go `uint8` channels are modelled as ℕ
reduced mod 256 at each point where Go performs a `uint8` conversion.
Go error strings are reproduced up to punctuation.
-/

/-- Truncation toward zero, as used by Go float-to-int conversions and
`math.Mod`. -/
def qtrunc (q : ℚ) : ℤ :=
  if 0 ≤ q then ⌊q⌋ else -⌊-q⌋

/-- Go `math.Mod x y`: remainder with the sign of `x` (`x - y*trunc(x/y)`). -/
def gomod (x y : ℚ) : ℚ :=
  x - y * (qtrunc (x / y) : ℚ)

/-- `math.MaxFloat64`, the initial best distance in `closest`. -/
def maxFloat : ℚ := 2 ^ 1024 - 2 ^ 971

/-- Go `color.RGBA`: four `uint8` channels (modelled as ℕ). -/
structure RGBA where
  R : ℕ
  G : ℕ
  B : ℕ
  A : ℕ
deriving DecidableEq, Repr

/-- `UIntRGBA`: create RGBA from uint RGB values, alpha 255. -/
def UIntRGBA (r g b : ℕ) : RGBA :=
  ⟨r, g, b, 255⟩

/-- Go `uint8(f)` for a float64 `f`: truncation toward zero; undefined
outside [0, 255] (modelled by `toNat` and mod 256; every use proved about
below stays in range). -/
def u8trunc (q : ℚ) : ℕ :=
  (qtrunc q).toNat % 256

/-- The channel rounding of `FloatRGBA`: `uint8(math.Floor(r + 0.5))` when
`r < 255`, otherwise `uint8(r)`. -/
def roundToU8 (q : ℚ) : ℕ :=
  if q < 255 then (⌊q + 1/2⌋).toNat % 256 else u8trunc q

/-- `FloatRGBA`: create RGBA from float RGB values with the rounding rule. -/
def FloatRGBA (r g b : ℚ) : RGBA :=
  UIntRGBA (roundToU8 r) (roundToU8 g) (roundToU8 b)

/-- `RGB2HSV`: standard RGB→HSV conversion as written in convert.go. -/
def RGB2HSV (or og ob : ℕ) : ℚ × ℚ × ℚ :=
  let r : ℚ := (or : ℚ) / 255
  let g : ℚ := (og : ℚ) / 255
  let b : ℚ := (ob : ℚ) / 255
  let mx := max (max r g) b
  let mn := min (min r g) b
  let d := mx - mn
  let h0 : ℚ :=
    if d = 0 then 0
    else if mx = r then gomod ((g - b) / d) 6
    else if mx = g then (b - r) / d + 2
    else (r - g) / d + 4
  let h1 := h0 / 6
  let h := if h1 < 0 then h1 + 1 else h1
  let s : ℚ := if mx = 0 then 0 else d / mx
  (h, s, mx)

/-- `HSV2RGBA`: six-sector HSV→RGB conversion as written in convert.go. -/
def HSV2RGBA (h s v : ℚ) : RGBA :=
  let hd0 := h * 360
  let hd := if 360 ≤ hd0 then 359 else hd0
  let hh := hd / 60
  let c := v * s
  let x := c * (1 - |gomod hh 2 - 1|)
  let rgb : ℚ × ℚ × ℚ :=
    if hh < 1 then (c, x, 0)
    else if hh < 2 then (x, c, 0)
    else if hh < 3 then (0, c, x)
    else if hh < 4 then (0, x, c)
    else if hh < 5 then (x, 0, c)
    else (c, 0, x)
  let m := v - c
  FloatRGBA ((rgb.1 + m) * 255) ((rgb.2.1 + m) * 255) ((rgb.2.2 + m) * 255)

/-- The `Pixel` struct: `uint8` channels R,G,B and derived float H,S,V. -/
structure Pixel where
  R : ℕ
  G : ℕ
  B : ℕ
  H : ℚ
  S : ℚ
  V : ℚ
deriving DecidableEq, Repr

/-- Well-formedness: channels in the `uint8` range (automatic in Go). -/
def Pixel.wf (p : Pixel) : Prop :=
  p.R < 256 ∧ p.G < 256 ∧ p.B < 256

instance (p : Pixel) : Decidable p.wf := by
  unfold Pixel.wf; infer_instance

/-- `NewPixelRGB`: generate pixel from RGB (arguments are `uint8` in Go,
hence the mod-256 reduction at entry). -/
def NewPixelRGB (r g b : ℕ) : Pixel :=
  let hsv := RGB2HSV (r % 256) (g % 256) (b % 256)
  ⟨r % 256, g % 256, b % 256, hsv.1, hsv.2.1, hsv.2.2⟩

/-- `NewPixelHSV`: generate pixel from HSV. -/
def NewPixelHSV (h s v : ℚ) : Pixel :=
  let c := HSV2RGBA h s v
  NewPixelRGB c.R c.G c.B

/-- A Go `color.Color` as seen by `convertColor`: the three supported
dynamic types plus anything else (`unsupported`). -/
inductive GoColor where
  | ycbcr (y cb cr : ℕ)
  | rgba (r g b a : ℕ)
  | rgbaPtr (r g b a : ℕ)
  | unsupported (tag : ℕ)
deriving DecidableEq, Repr

/-- Clamp an integer into the `uint8` range. -/
def clamp8 (v : ℤ) : ℕ :=
  if v < 0 then 0 else if 255 < v then 255 else v.toNat

/-- Go standard library `color.YCbCrToRGB` (an external collaborator of this
repository): fixed-point conversion; its bit tricks implement exactly a
clamped arithmetic shift, which is what is written here. -/
def yCbCrToRGB (y cb cr : ℕ) : ℕ × ℕ × ℕ :=
  let yy1 : ℤ := (y : ℤ) * 0x10101
  let cb1 : ℤ := (cb : ℤ) - 128
  let cr1 : ℤ := (cr : ℤ) - 128
  (clamp8 ((yy1 + 91881 * cr1).fdiv 65536),
   clamp8 ((yy1 - 22554 * cb1 - 46802 * cr1).fdiv 65536),
   clamp8 ((yy1 + 116130 * cb1).fdiv 65536))

/-- `convertColor`: convert color to RGBA format; fails on any
representation other than YCbCr, RGBA, or a pointer to RGBA. -/
def convertColor : GoColor → Except String RGBA
  | .ycbcr y cb cr =>
      let rgb := yCbCrToRGB y cb cr
      .ok (UIntRGBA rgb.1 rgb.2.1 rgb.2.2)
  | .rgba r g b a => .ok ⟨r, g, b, a⟩
  | .rgbaPtr r g b a => .ok ⟨r, g, b, a⟩
  | .unsupported _ => .error "Not supported color"

/-- `NewPixel`: generate pixel from color.  In Go this returns a nil
`*Pixel` when `convertColor` fails — the error itself is discarded.  The nil
pointer is modelled as `none`. -/
def NewPixel (c : GoColor) : Option Pixel :=
  match convertColor c with
  | .error _ => none
  | .ok cc => some (NewPixelRGB cc.R cc.G cc.B)

/-- `Pixel.DistanceHSV`: componentwise absolute HSV differences
(|ΔH|, |ΔS|, |ΔV|). -/
def Pixel.DistanceHSV (p src : Pixel) : ℚ × ℚ × ℚ :=
  (|src.H - p.H|, |src.S - p.S|, |src.V - p.V|)

/-- `Pixel.DistanceRGB`: squared Euclidean distance in RGB space. -/
def Pixel.DistanceRGB (p src : Pixel) : ℚ :=
  ((src.R : ℚ) - (p.R : ℚ)) ^ 2 + ((src.G : ℚ) - (p.G : ℚ)) ^ 2 +
    ((src.B : ℚ) - (p.B : ℚ)) ^ 2

/-- `Pixel.Shift`: zero the low `shift` bits of each channel and rebuild
the pixel (recomputing H,S,V). -/
def Pixel.Shift (p : Pixel) (shift : ℕ) : Pixel :=
  NewPixelRGB ((p.R >>> shift) <<< shift) ((p.G >>> shift) <<< shift)
    ((p.B >>> shift) <<< shift)

/-- `Pixel.Color`: the RGBA of a pixel (alpha 255). -/
def Pixel.Color (p : Pixel) : RGBA :=
  UIntRGBA p.R p.G p.B

/-- `Pack`: pack pixel data into an integer (`int(R)<<16 | int(G)<<8 |
int(B)`; the or of disjoint bit ranges equals this sum). -/
def Pack (p : Pixel) : ℕ :=
  (p.R % 256) * 65536 + (p.G % 256) * 256 + (p.B % 256)

/-- `UnPack`: restore to original rgb format. -/
def UnPack (v : ℕ) : ℕ × ℕ × ℕ :=
  ((v >>> 16) % 256, (v >>> 8) % 256, v % 256)

/-- Go `uint(s)` for an `int` argument (two's-complement reinterpretation
in 64 bits). -/
def uintOfInt (s : ℤ) : ℕ :=
  (s % (2 ^ 64)).toNat

/-- `Pixels.Most`: the most populous packed color.  Go iterates a hash map
whose order is unspecified; it is modelled as first-strict-maximum over the
packed values in first-occurrence order (the claims below only evaluate it
on the empty buffer, where the order is irrelevant). -/
def Pixels.Most (p : List Pixel) : Pixel :=
  let packed := p.map Pack
  let keys := packed.dedup
  let best := keys.foldl
    (fun (acc : ℕ × ℕ) key =>
      if packed.count key > acc.1 then (packed.count key, key) else acc)
    (0, 0)
  let rgb := UnPack best.2
  NewPixelRGB rgb.1 rgb.2.1 rgb.2.2

/-- `Pixels.Quantize`: map `Shift` over the buffer; error when the shift is
8 or more. -/
def Pixels.Quantize (p : List Pixel) (s : ℤ) : Except String (List Pixel) :=
  if 8 ≤ s then .error "Shift cannot be over 8"
  else .ok (p.map (fun pix => pix.Shift (uintOfInt s)))

/-- `Pixels.Average`: float mean of the channels, rounded through
`FloatRGBA` and rebuilt through `NewPixel`.  Returns `(*Pixel, error)` in
Go; the possibly-nil pointer is an `Option`.  A nil slice and an empty
slice both error in Go; lists model both as `[]`. -/
def Pixels.Average (p : List Pixel) : Except String (Option Pixel) :=
  if p.length = 0 then .error "Pixels length is zero"
  else
    let r : ℚ := (p.map (fun d => (d.R : ℚ))).sum
    let g : ℚ := (p.map (fun d => (d.G : ℚ))).sum
    let b : ℚ := (p.map (fun d => (d.B : ℚ))).sum
    let avg : ℚ := 1 / (p.length : ℚ)
    let c := FloatRGBA (r * avg) (g * avg) (b * avg)
    .ok (NewPixel (GoColor.rgbaPtr c.R c.G c.B c.A))

/-- A decoded raster image as the core sees it: width, height, and a
per-coordinate color lookup (bounds assumed to start at the origin). -/
structure GoImage where
  cols : ℕ
  rows : ℕ
  at_ : ℕ → ℕ → GoColor

/-- `convertPixels`: convert image into pixels, outer loop over columns,
inner loop over rows.  The Go function's error result is always nil; a
pixel whose color is unsupported becomes a nil entry (`none`). -/
def convertPixels (img : GoImage) : Except String (List (Option Pixel)) :=
  .ok ((List.range img.cols).flatMap
    (fun col => (List.range img.rows).map (fun row => NewPixel (img.at_ col row))))

/-- The color stored for one buffer entry by `ToImage`.  A nil entry would
make Go panic on the `Color()` call; the value chosen here is unreachable
under the hypotheses of the round-trip theorems. -/
def pixColor : Option Pixel → RGBA
  | some p => p.Color
  | none => ⟨0, 0, 0, 255⟩

/-- `Pixels.ToImage`: reconstruct the raster by walking the buffer in the
same column-major-then-row order; the produced image is modelled by its
per-coordinate lookup, `(col, row) ↦ p[col*rows + row]`. -/
def Pixels.ToImage (p : List (Option Pixel)) (cols rows : ℕ) : ℕ → ℕ → RGBA :=
  fun col row => pixColor (p.getD (col * rows + row) none)

/-- The `Option` struct of shrink.go (renamed: `Option` is taken in Lean). -/
structure Opt where
  samplingRate : ℚ
  brightness : ℚ
  saturation : ℚ
  foregroundNum : ℤ
  shift : ℤ
  kMeansIterations : ℤ

/-- `getForegroundMask`: a pixel is foreground when `ΔV ≥ Brightness` or
`ΔS ≥ Saturation` against the background color. -/
def getForegroundMask (p : List Pixel) (bg : Pixel) (op : Opt) :
    Except String (List Bool) :=
  .ok (p.map (fun pix =>
    let dhsv := pix.DistanceHSV bg
    decide (op.brightness ≤ dhsv.2.2) || decide (op.saturation ≤ dhsv.2.1)))

/-- `getBackgroundColor`: quantize then majority vote. -/
def getBackgroundColor (p : List Pixel) (op : Opt) : Except String Pixel :=
  match Pixels.Quantize p op.shift with
  | .error e => .error e
  | .ok q => .ok (Pixels.Most q)

/-- The loop body of `closest`: running best index (−1 initially) and best
distance (`math.MaxFloat64` initially), strict improvement only. -/
def closestAux (p : Pixel) : List Pixel → ℕ → ℤ → ℚ → ℤ
  | [], _, idx, _ => idx
  | l :: ls, i, idx, d =>
      if p.DistanceRGB l < d then closestAux p ls (i + 1) (i : ℤ) (p.DistanceRGB l)
      else closestAux p ls (i + 1) idx d

/-- `closest`: index of the first center at minimal `DistanceRGB` (−1 when
no distance beats `MaxFloat64`). -/
def closest (p : Pixel) (labels : List Pixel) : ℤ :=
  closestAux p labels 0 (-1) maxFloat

/-- Go `labels[wk]` for an `int` index: panics when out of range; the
default here is unreachable under the hypotheses used below. -/
def goIndex (l : List Pixel) (i : ℤ) : Pixel :=
  if h : 0 ≤ i ∧ i.toNat < l.length then l.get ⟨i.toNat, h.2⟩
  else NewPixelRGB 0 0 0

/-- `apply`: every full-resolution pixel becomes the background color, or
the closest palette center when its mask bit is set. -/
def apply (data : List Pixel) (bg : Pixel) (labels : List Pixel) (op : Opt) :
    Except String (List Pixel) :=
  match getForegroundMask data bg op with
  | .error e => .error e
  | .ok flag =>
      .ok ((data.zip flag).map (fun pf =>
        if pf.2 then goIndex labels (closest pf.1 labels) else bg))

/-- The `groups` slice of one k-means round: element `i` of `p` is appended
to `groups[index[i]]` (an out-of-range label would panic in Go; the
`List.set` no-op is unreachable under the theorems below). -/
def groupsOf (p : List Pixel) (index : List ℤ) (k : ℕ) : List (List Pixel) :=
  (p.zip index).foldl
    (fun gs pi => gs.set pi.2.toNat (gs.getD pi.2.toNat [] ++ [pi.1]))
    (List.replicate k [])

/-- The update step of one k-means round: a center is replaced by its
group's average exactly when `Average` returns a non-nil pixel and no
error. -/
def updateLabels (labels : List Pixel) (groups : List (List Pixel)) : List Pixel :=
  (labels.zip groups).map (fun lg =>
    match Pixels.Average lg.2 with
    | .ok (some nl) => nl
    | _ => lg.1)

/-- One iteration of the `kmeans` loop: group, update centers, reassign,
count changes. -/
def kmeansRound (p : List Pixel) (labels : List Pixel) (index : List ℤ) :
    List Pixel × List ℤ × ℕ :=
  let groups := groupsOf p index labels.length
  let newLabels := updateLabels labels groups
  let newIndex := p.map (fun pix => closest pix newLabels)
  let changes := (newIndex.zip index).countP (fun x => decide (x.1 ≠ x.2))
  (newLabels, newIndex, changes)

/-- The iteration of `kmeans`: up to the given number of rounds, stopping
early when no assignment changes (Go breaks after updating labels). -/
def kmeansLoop (p : List Pixel) : List Pixel → List ℤ → ℕ → List Pixel
  | labels, _, 0 => labels
  | labels, index, n + 1 =>
      let r := kmeansRound p labels index
      if r.2.2 = 0 then r.1 else kmeansLoop p r.1 r.2.1 n

/-- Initial centers: evenly spaced hues `i/(k-1)` at full saturation and
value.  For k = 1 Go computes `0.0/0.0 = NaN` here while ℚ yields 0 — the
k = 1 theorem below therefore quantifies over an arbitrary initial center,
which covers either value. -/
def initLabels (k : ℤ) : List Pixel :=
  (List.range k.toNat).map (fun i =>
    NewPixelHSV ((i : ℚ) / ((k : ℚ) - 1)) 1 1)

/-- `kmeans`: k = ForegroundNum − 1 centers, initialized on the hue circle,
iterated for at most KMeansIterations rounds.  The Go error result is
always nil. -/
def kmeans (p : List Pixel) (op : Opt) : Except String (List Pixel) :=
  let k := op.foregroundNum - 1
  let labels := initLabels k
  let index := p.map (fun pix => closest pix labels)
  .ok (kmeansLoop p labels index op.kMeansIterations.toNat)

/-- Default option values of `DefaultOption`. -/
def DefaultOption : Opt :=
  ⟨1/20, 3/10, 1/5, 6, 2, 40⟩

/-- Replace the hue field of a pixel, leaving everything else unchanged
(used to state that hue has no influence on the foreground mask). -/
def setH (p : Pixel) (h : ℚ) : Pixel :=
  { p with H := h }

/-- Default pixel used for list indexing with `getD` in statements;
every such access is made at an in-range index. -/
def dPix : Pixel :=
  NewPixelRGB 0 0 0

/-- A concrete configuration with ForegroundNum = 2 (k = 1). -/
def opK1 : Opt :=
  ⟨1/20, 3/10, 1/5, 2, 2, 40⟩

/-- Concrete image with one unsupported pixel (e.g. a `color.Gray`). -/
def imgUnsupported : GoImage :=
  ⟨1, 1, fun _ _ => GoColor.unsupported 0⟩

/-- Concrete 1×1 image whose single RGBA pixel has alpha 7. -/
def imgAlpha : GoImage :=
  ⟨1, 1, fun _ _ => GoColor.rgba 10 20 30 7⟩

/-- Concrete 1×2 image of fully opaque RGBA pixels (round-trip witness). -/
def imgTwo : GoImage :=
  ⟨1, 2, fun _ r => GoColor.rgba (40 + r) 50 60 255⟩

/-! ## Basic lemmas on rounding, well-formedness and averages -/

theorem roundToU8_natCast (n : ℕ) (h : n < 256) : roundToU8 (n : ℚ) = n := by
  unfold roundToU8 u8trunc qtrunc
  by_cases hn : (n : ℚ) < 255
  · rw [if_pos hn]
    have hfl : ⌊(n : ℚ) + 1/2⌋ = (n : ℤ) := by
      apply Int.floor_eq_iff.mpr
      constructor
      · push_cast; linarith
      · push_cast; linarith
    rw [hfl]
    simp [Nat.mod_eq_of_lt h]
  · have h255 : (255 : ℚ) ≤ (n : ℚ) := not_lt.mp hn
    have hge : 255 ≤ n := by exact_mod_cast h255
    have hn255 : n = 255 := by omega
    subst hn255
    rw [if_neg hn, if_pos (by norm_num)]
    norm_num
    decide

theorem NewPixelRGB_wf (r g b : ℕ) : (NewPixelRGB r g b).wf := by
  refine ⟨?_, ?_, ?_⟩ <;> exact Nat.mod_lt _ (by norm_num)

theorem NewPixelHSV_wf (h s v : ℚ) : (NewPixelHSV h s v).wf := by
  unfold NewPixelHSV
  exact NewPixelRGB_wf _ _ _

theorem average_spec_nonempty {p : List Pixel} (h : p ≠ []) :
    ∃ a, Pixels.Average p = Except.ok (some a) ∧ a.wf := by
  unfold Pixels.Average
  rw [if_neg (by simpa using h)]
  exact ⟨_, rfl, NewPixelRGB_wf _ _ _⟩

/-! ## C7: averaging a single element, and the empty buffer -/

/-- C7: `Average()` of a one-element buffer returns a pixel with the same
R, G, B channels as that element (the float mean and the rounding rule leave
an integer channel unchanged), and `Average()` of an empty buffer fails with
the EmptyInput error. -/
theorem average_single_empty :
    (∀ p : Pixel, p.wf → ∃ a, Pixels.Average [p] = Except.ok (some a) ∧
      a.R = p.R ∧ a.G = p.G ∧ a.B = p.B) ∧
    Pixels.Average ([] : List Pixel) = Except.error "Pixels length is zero" := by
  constructor
  · intro p hp
    obtain ⟨h1, h2, h3⟩ := hp
    refine ⟨NewPixelRGB p.R p.G p.B, ?_, ?_, ?_, ?_⟩
    · unfold Pixels.Average
      rw [if_neg (by norm_num)]
      simp only [List.map_cons, List.map_nil, List.sum_cons, List.sum_nil,
        List.length_cons, List.length_nil]
      norm_num
      unfold FloatRGBA UIntRGBA
      rw [roundToU8_natCast _ h1, roundToU8_natCast _ h2, roundToU8_natCast _ h3]
      rfl
    · simp [NewPixelRGB, Nat.mod_eq_of_lt h1]
    · simp [NewPixelRGB, Nat.mod_eq_of_lt h2]
    · simp [NewPixelRGB, Nat.mod_eq_of_lt h3]
  · rfl

/-- C7 witness: a concrete one-element buffer. -/
theorem average_single_empty_witness :
    ∃ a, Pixels.Average [NewPixelRGB 9 8 7] = Except.ok (some a) ∧
      a.R = (NewPixelRGB 9 8 7).R ∧ a.G = (NewPixelRGB 9 8 7).G ∧
      a.B = (NewPixelRGB 9 8 7).B :=
  average_single_empty.1 (NewPixelRGB 9 8 7) (by decide)

/-! ## C10: `Most` of the empty buffer and background selection -/

/-- C10: `Most()` on an empty buffer does not fail — it returns the black
pixel (R = G = B = 0) — and consequently `getBackgroundColor` on an empty
sample with any valid shift silently yields black instead of an error. -/
theorem most_empty_black :
    Pixels.Most ([] : List Pixel) = NewPixelRGB 0 0 0 ∧
    (Pixels.Most ([] : List Pixel)).R = 0 ∧
    (Pixels.Most ([] : List Pixel)).G = 0 ∧
    (Pixels.Most ([] : List Pixel)).B = 0 ∧
    (∀ op : Opt, op.shift < 8 →
      getBackgroundColor [] op = Except.ok (NewPixelRGB 0 0 0)) := by
  refine ⟨rfl, rfl, rfl, rfl, ?_⟩
  intro op hop
  have hq : Pixels.Quantize [] op.shift = Except.ok [] := by
    unfold Pixels.Quantize
    rw [if_neg (not_le.mpr hop)]
    rfl
  unfold getBackgroundColor
  rw [hq]
  rfl

/-- C10 witness: the default configuration (shift 2). -/
theorem most_empty_black_witness :
    getBackgroundColor [] DefaultOption = Except.ok (NewPixelRGB 0 0 0) :=
  most_empty_black.2.2.2.2 DefaultOption (by decide)

/-! ## C4 (corrected): conversion never surfaces the unsupported-color error -/

/-- C4 counterexample: a 1×1 image whose only pixel is in an unsupported
color representation.  `convertColor` does produce the UnsupportedColorFormat
error, but `convertPixels` returns `Ok` (with a nil buffer entry) — it never
returns an error to the caller, contradicting the claim. -/
theorem convertPixels_ok_on_unsupported :
    convertPixels imgUnsupported = Except.ok [none] ∧
    convertColor (GoColor.unsupported 0) = Except.error "Not supported color" ∧
    ∀ e, convertPixels imgUnsupported ≠ Except.error e := by
  refine ⟨rfl, rfl, ?_⟩
  intro e h
  rw [show convertPixels imgUnsupported = Except.ok [none] from rfl] at h
  exact Except.noConfusion h

/-- C4 amended: `convertPixels` never returns an error.  A pixel in an
unsupported representation is silently stored as a nil (`none`) entry of the
returned buffer: `NewPixel` yields nil exactly when `convertColor` fails,
and the error is discarded rather than surfaced. -/
theorem convertPixels_never_errors :
    (∀ img : GoImage, ∃ l, convertPixels img = Except.ok l) ∧
    (∀ c : GoColor, NewPixel c = none ↔ ∃ e, convertColor c = Except.error e) := by
  constructor
  · intro img
    exact ⟨_, rfl⟩
  · intro c
    cases c <;> simp [NewPixel, convertColor]

/-! ## C5: Quantize fails for shift ≥ 8, succeeds for 0..7 -/

theorem uintOfInt_small {s : ℤ} (h0 : 0 ≤ s) (h8 : s < 8) :
    uintOfInt s = s.toNat := by
  unfold uintOfInt
  rw [Int.emod_eq_of_lt h0 (by omega)]

theorem shift_channel_eq {v : ℕ} (hv : v < 256) (k : ℕ) :
    ((v >>> k) <<< k) % 256 = (v >>> k) <<< k := by
  apply Nat.mod_eq_of_lt
  calc (v >>> k) <<< k = v / 2 ^ k * 2 ^ k := by
        rw [Nat.shiftRight_eq_div_pow, Nat.shiftLeft_eq]
    _ ≤ v := Nat.div_mul_le_self v (2 ^ k)
    _ < 256 := hv

/-- C5: `Quantize(shift)` errors for every shift ≥ 8 and succeeds for every
shift in 0..7, zeroing the low `shift` bits of each channel of each element
(`(v >> shift) << shift`). -/
theorem quantize_spec (p : List Pixel) (s : ℤ) :
    (8 ≤ s → Pixels.Quantize p s = Except.error "Shift cannot be over 8") ∧
    (0 ≤ s → s < 8 → (∀ q ∈ p, q.wf) →
      ∃ out, Pixels.Quantize p s = Except.ok out ∧ out.length = p.length ∧
        ∀ i, ∀ hi : i < p.length,
          (out.getD i dPix).R = ((p.get ⟨i, hi⟩).R >>> s.toNat) <<< s.toNat ∧
          (out.getD i dPix).G = ((p.get ⟨i, hi⟩).G >>> s.toNat) <<< s.toNat ∧
          (out.getD i dPix).B = ((p.get ⟨i, hi⟩).B >>> s.toNat) <<< s.toNat) := by
  constructor
  · intro h8
    unfold Pixels.Quantize
    rw [if_pos h8]
  · intro h0 h8 hwf
    refine ⟨p.map (fun pix => pix.Shift (uintOfInt s)), ?_, by simp, ?_⟩
    · unfold Pixels.Quantize
      rw [if_neg (not_le.mpr h8)]
    · intro i hi
      have hm : i < (p.map (fun pix => pix.Shift (uintOfInt s))).length := by
        simpa using hi
      rw [List.getD_eq_getElem _ _ hm]
      have hq := hwf _ (List.get_mem p i hi)
      simp only [List.getElem_map, List.get_eq_getElem] at hq ⊢
      simp only [uintOfInt_small h0 h8]
      unfold Pixel.Shift NewPixelRGB
      exact ⟨shift_channel_eq hq.1 s.toNat, shift_channel_eq hq.2.1 s.toNat,
        shift_channel_eq hq.2.2 s.toNat⟩

/-- C5 witness: shift 8 fails; shift 2 succeeds and zeroes the low 2 bits
of a concrete channel (255 becomes 252). -/
theorem quantize_spec_witness :
    Pixels.Quantize [NewPixelRGB 255 7 129] 8 = Except.error "Shift cannot be over 8" ∧
    ∃ out, Pixels.Quantize [NewPixelRGB 255 7 129] 2 = Except.ok out ∧
      (out.getD 0 dPix).R = 252 := by
  constructor
  · exact (quantize_spec [NewPixelRGB 255 7 129] 8).1 (by decide)
  · obtain ⟨out, h1, h2, h3⟩ :=
      (quantize_spec [NewPixelRGB 255 7 129] 2).2 (by decide) (by decide) (by decide)
    refine ⟨out, h1, ?_⟩
    rw [((h3 0 (by decide)).1)]
    decide

/-! ## C9: Quantize is idempotent at the same shift -/

theorem shift_idem (x : Pixel) (k : ℕ) (hk : k ≤ 7) :
    (x.Shift k).Shift k = x.Shift k := by
  have key : ∀ v : ℕ, ((((v >>> k) <<< k) % 256) >>> k) <<< k = ((v >>> k) <<< k) % 256 := by
    intro v
    have hdvd : 2 ^ k ∣ ((v >>> k) <<< k) % 256 := by
      apply (Nat.dvd_mod_iff (Nat.pow_dvd_pow 2 (by omega : k ≤ 8))).mpr
      rw [Nat.shiftLeft_eq]
      exact dvd_mul_left _ _
    obtain ⟨c, hc⟩ := hdvd
    rw [hc, Nat.shiftRight_eq_div_pow, Nat.shiftLeft_eq,
      Nat.mul_div_cancel_left c (pow_pos (by norm_num : 0 < 2) k), Nat.mul_comm]
  show (NewPixelRGB _ _ _).Shift k = _
  unfold Pixel.Shift NewPixelRGB
  simp only []
  rw [key x.R, key x.G, key x.B]
  simp [Nat.mod_mod_of_dvd _ (dvd_refl 256)]

/-- C9: for every buffer and every valid shift 0..7, quantizing twice at the
same shift equals quantizing once — `Quantize(shift)` changes no element of
an already-quantized buffer. -/
theorem quantize_idempotent (p : List Pixel) (s : ℤ) (h0 : 0 ≤ s) (h8 : s < 8) :
    ∃ q, Pixels.Quantize p s = Except.ok q ∧ Pixels.Quantize q s = Except.ok q := by
  refine ⟨p.map (fun pix => pix.Shift (uintOfInt s)), ?_, ?_⟩
  · unfold Pixels.Quantize
    rw [if_neg (not_le.mpr h8)]
  · unfold Pixels.Quantize
    rw [if_neg (not_le.mpr h8)]
    congr 1
    rw [List.map_map]
    apply List.map_congr_left
    intro x _
    have hk : uintOfInt s ≤ 7 := by
      rw [uintOfInt_small h0 h8]; omega
    exact shift_idem x (uintOfInt s) hk

/-- C9 witness: a concrete buffer at shift 2. -/
theorem quantize_idempotent_witness :
    ∃ q, Pixels.Quantize [NewPixelRGB 255 7 129] 2 = Except.ok q ∧
      Pixels.Quantize q 2 = Except.ok q :=
  quantize_idempotent [NewPixelRGB 255 7 129] 2 (by decide) (by decide)

/-! ## C2: the foreground mask tests only ΔS and ΔV, never ΔH -/

/-- C2: `getForegroundMask` marks pixel `i` as foreground iff
`|ΔV| ≥ Brightness ∨ |ΔS| ≥ Saturation` against the background color, and
the hue fields have no influence: rewriting every pixel hue (and the
background hue) arbitrarily leaves the mask unchanged. -/
theorem getForegroundMask_spec (p : List Pixel) (bg : Pixel) (op : Opt) :
    (∃ flag, getForegroundMask p bg op = Except.ok flag ∧
      flag.length = p.length ∧
      ∀ i, ∀ hi : i < p.length,
        (flag.getD i false = true ↔
          (op.brightness ≤ |bg.V - (p.get ⟨i, hi⟩).V| ∨
           op.saturation ≤ |bg.S - (p.get ⟨i, hi⟩).S|))) ∧
    (∀ (h : Pixel → ℚ) (hbg : ℚ),
      getForegroundMask (p.map fun q => setH q (h q)) (setH bg hbg) op =
        getForegroundMask p bg op) := by
  constructor
  · refine ⟨_, rfl, by simp, ?_⟩
    intro i hi
    have hm : i < (p.map (fun pix =>
        decide (op.brightness ≤ (pix.DistanceHSV bg).2.2) ||
        decide (op.saturation ≤ (pix.DistanceHSV bg).2.1))).length := by
      simpa using hi
    rw [List.getD_eq_getElem _ _ hm]
    simp [Pixel.DistanceHSV, List.get_eq_getElem]
  · intro h hbg
    unfold getForegroundMask
    rw [List.map_map]
    rfl

/-- C2 witness: a concrete white pixel on a black background is classified
foreground, and a concrete hue rewrite leaves the mask unchanged. -/
theorem getForegroundMask_spec_witness :
    getForegroundMask [setH (NewPixelRGB 255 255 255) (1/3)]
        (setH (NewPixelRGB 0 0 0) (2/3)) DefaultOption =
      getForegroundMask [NewPixelRGB 255 255 255] (NewPixelRGB 0 0 0) DefaultOption ∧
    ∃ flag, getForegroundMask [NewPixelRGB 255 255 255] (NewPixelRGB 0 0 0)
        DefaultOption = Except.ok flag ∧ flag.getD 0 false = true := by
  constructor
  · exact (getForegroundMask_spec [NewPixelRGB 255 255 255] (NewPixelRGB 0 0 0)
      DefaultOption).2 (fun _ => 1/3) (2/3)
  · obtain ⟨flag, h1, _, hiff⟩ := (getForegroundMask_spec [NewPixelRGB 255 255 255]
      (NewPixelRGB 0 0 0) DefaultOption).1
    refine ⟨flag, h1, (hiff 0 (by norm_num)).mpr (Or.inl ?_)⟩
    have hv0 : (NewPixelRGB 0 0 0).V = 0 := by simp [NewPixelRGB, RGB2HSV]
    have hv1 : ([NewPixelRGB 255 255 255].get ⟨0, by norm_num⟩).V = 1 := by
      simp [NewPixelRGB, RGB2HSV]
    rw [hv0, hv1]
    norm_num [DefaultOption]

/-! ## Distances, `closest` and the palette applicator (C1) -/

theorem distanceRGB_lt_maxFloat {p q : Pixel} (hp : p.wf) (hq : q.wf) :
    p.DistanceRGB q < maxFloat := by
  obtain ⟨hp1, hp2, hp3⟩ := hp
  obtain ⟨hq1, hq2, hq3⟩ := hq
  have c1 : (p.R : ℚ) ≤ 255 := by exact_mod_cast Nat.le_of_lt_succ hp1
  have c2 : (p.G : ℚ) ≤ 255 := by exact_mod_cast Nat.le_of_lt_succ hp2
  have c3 : (p.B : ℚ) ≤ 255 := by exact_mod_cast Nat.le_of_lt_succ hp3
  have c4 : (q.R : ℚ) ≤ 255 := by exact_mod_cast Nat.le_of_lt_succ hq1
  have c5 : (q.G : ℚ) ≤ 255 := by exact_mod_cast Nat.le_of_lt_succ hq2
  have c6 : (q.B : ℚ) ≤ 255 := by exact_mod_cast Nat.le_of_lt_succ hq3
  have n1 : (0 : ℚ) ≤ (p.R : ℚ) := Nat.cast_nonneg _
  have n2 : (0 : ℚ) ≤ (p.G : ℚ) := Nat.cast_nonneg _
  have n3 : (0 : ℚ) ≤ (p.B : ℚ) := Nat.cast_nonneg _
  have n4 : (0 : ℚ) ≤ (q.R : ℚ) := Nat.cast_nonneg _
  have n5 : (0 : ℚ) ≤ (q.G : ℚ) := Nat.cast_nonneg _
  have n6 : (0 : ℚ) ≤ (q.B : ℚ) := Nat.cast_nonneg _
  have s1 : ((q.R : ℚ) - (p.R : ℚ)) ^ 2 ≤ 255 ^ 2 :=
    sq_le_sq' (by linarith) (by linarith)
  have s2 : ((q.G : ℚ) - (p.G : ℚ)) ^ 2 ≤ 255 ^ 2 :=
    sq_le_sq' (by linarith) (by linarith)
  have s3 : ((q.B : ℚ) - (p.B : ℚ)) ^ 2 ≤ 255 ^ 2 :=
    sq_le_sq' (by linarith) (by linarith)
  have htot : p.DistanceRGB q ≤ 3 * 255 ^ 2 := by
    unfold Pixel.DistanceRGB
    linarith
  calc p.DistanceRGB q ≤ 3 * 255 ^ 2 := htot
    _ < maxFloat := by unfold maxFloat; norm_num

theorem closest_single {p l : Pixel} (hp : p.wf) (hl : l.wf) : closest p [l] = 0 := by
  unfold closest
  simp only [closestAux]
  rw [if_pos (distanceRGB_lt_maxFloat hp hl)]
  simp [closestAux]

theorem closestAux_spec (p : Pixel) :
    ∀ (ls : List Pixel) (i : ℕ) (idx : ℤ) (d : ℚ),
      (closestAux p ls i idx d = idx ∧ ∀ l ∈ ls, d ≤ p.DistanceRGB l) ∨
      (∃ j, ∃ hj : j < ls.length, closestAux p ls i idx d = ((i + j : ℕ) : ℤ) ∧
        p.DistanceRGB ls[j] < d ∧
        ∀ l ∈ ls, p.DistanceRGB ls[j] ≤ p.DistanceRGB l) := by
  intro ls
  induction ls with
  | nil =>
      intro i idx d
      left
      exact ⟨rfl, by simp⟩
  | cons a as ih =>
      intro i idx d
      by_cases hlt : p.DistanceRGB a < d
      · rcases ih (i + 1) (i : ℤ) (p.DistanceRGB a) with ⟨heq, hall⟩ | ⟨j, hj, heq, hjd, hmin⟩
        · right
          refine ⟨0, by simp, ?_, by simpa using hlt, ?_⟩
          · simp only [closestAux, if_pos hlt]
            rw [heq]
            simp
          · intro l hl
            rcases List.mem_cons.mp hl with h | h
            · subst h; exact le_refl _
            · exact hall l h
        · right
          refine ⟨j + 1, by simp only [List.length_cons]; omega, ?_, ?_, ?_⟩
          · simp only [closestAux, if_pos hlt]
            rw [heq]
            congr 1
            omega
          · simpa using lt_trans hjd hlt
          · intro l hl
            rcases List.mem_cons.mp hl with h | h
            · subst h
              simpa using le_of_lt hjd
            · simpa using hmin l h
      · rcases ih (i + 1) idx d with ⟨heq, hall⟩ | ⟨j, hj, heq, hjd, hmin⟩
        · left
          refine ⟨?_, ?_⟩
          · simp only [closestAux, if_neg hlt]
            exact heq
          · intro l hl
            rcases List.mem_cons.mp hl with h | h
            · subst h; exact not_lt.mp hlt
            · exact hall l h
        · right
          refine ⟨j + 1, by simp only [List.length_cons]; omega, ?_, ?_, ?_⟩
          · simp only [closestAux, if_neg hlt]
            rw [heq]
            congr 1
            omega
          · simpa using hjd
          · intro l hl
            rcases List.mem_cons.mp hl with h | h
            · subst h
              simpa using le_of_lt (lt_of_lt_of_le hjd (not_lt.mp hlt))
            · simpa using hmin l h

theorem closest_spec (p : Pixel) (labels : List Pixel) (hne : labels ≠ [])
    (hp : p.wf) (hl : ∀ l ∈ labels, l.wf) :
    ∃ j, ∃ hj : j < labels.length, closest p labels = (j : ℤ) ∧
      ∀ l ∈ labels, p.DistanceRGB labels[j] ≤ p.DistanceRGB l := by
  rcases closestAux_spec p labels 0 (-1) maxFloat with ⟨heq, hall⟩ | ⟨j, hj, heq, hjd, hmin⟩
  · obtain ⟨a, as, rfl⟩ : ∃ a as, labels = a :: as := by
      cases labels with
      | nil => exact absurd rfl hne
      | cons a as => exact ⟨a, as, rfl⟩
    have h1 := hall a (by simp)
    have h2 := distanceRGB_lt_maxFloat hp (hl a (by simp))
    exact absurd h1 (not_le.mpr h2)
  · exact ⟨j, hj, by simpa using heq, hmin⟩

theorem goIndex_natCast (l : List Pixel) (j : ℕ) (hj : j < l.length) :
    goIndex l ((j : ℕ) : ℤ) = l[j] := by
  unfold goIndex
  rw [dif_pos ⟨Int.natCast_nonneg j, by simpa using hj⟩]
  simp [List.get_eq_getElem]

theorem zip_map_same {α β γ : Type} (l : List α) (f : α → β) (g : α × β → γ) :
    (l.zip (l.map f)).map g = l.map (fun x => g (x, f x)) := by
  induction l with
  | nil => rfl
  | cons a l ih => simp [ih]

/-- C1: `apply` outputs, per pixel, exactly the background color when the
mask classifies it background-like, and otherwise a palette center at
minimal `DistanceRGB` from the pixel; every output color is the background
color or a learned center, so the output has at most `foregroundNum`
distinct colors when the palette holds `foregroundNum − 1` centers. -/
theorem apply_spec (data : List Pixel) (bg : Pixel) (labels : List Pixel) (op : Opt)
    (hne : labels ≠ []) (hd : ∀ q ∈ data, q.wf) (hl : ∀ l ∈ labels, l.wf) :
    ∃ out flag, apply data bg labels op = Except.ok out ∧
      getForegroundMask data bg op = Except.ok flag ∧
      out.length = data.length ∧
      (∀ x ∈ out, x = bg ∨ x ∈ labels) ∧
      (∀ i, ∀ hi : i < data.length,
        (flag.getD i false = false → out.getD i bg = bg) ∧
        (flag.getD i false = true →
          out.getD i bg ∈ labels ∧
          ∀ l ∈ labels, (data.get ⟨i, hi⟩).DistanceRGB (out.getD i bg) ≤
            (data.get ⟨i, hi⟩).DistanceRGB l)) ∧
      out.toFinset.card ≤ labels.length + 1 ∧
      (labels.length = (op.foregroundNum - 1).toNat →
        out.toFinset.card ≤ op.foregroundNum.toNat) := by
  have hkey : ∀ x : Pixel, x.wf →
      (goIndex labels (closest x labels) ∈ labels ∧
       ∀ l ∈ labels, x.DistanceRGB (goIndex labels (closest x labels)) ≤
         x.DistanceRGB l) := by
    intro x hx
    obtain ⟨j, hj, heq, hmin⟩ := closest_spec x labels hne hx hl
    rw [heq, goIndex_natCast labels j hj]
    exact ⟨List.getElem_mem hj, hmin⟩
  have happ : apply data bg labels op = Except.ok (data.map (fun x =>
      if (decide (op.brightness ≤ (x.DistanceHSV bg).2.2) ||
          decide (op.saturation ≤ (x.DistanceHSV bg).2.1)) then
        goIndex labels (closest x labels) else bg)) := by
    have h0 : apply data bg labels op = Except.ok ((data.zip (data.map (fun pix =>
        decide (op.brightness ≤ (pix.DistanceHSV bg).2.2) ||
        decide (op.saturation ≤ (pix.DistanceHSV bg).2.1)))).map (fun pf =>
          if pf.2 then goIndex labels (closest pf.1 labels) else bg)) := rfl
    rw [zip_map_same] at h0
    exact h0
  have hmem : ∀ x ∈ data.map (fun x =>
      if (decide (op.brightness ≤ (x.DistanceHSV bg).2.2) ||
          decide (op.saturation ≤ (x.DistanceHSV bg).2.1)) then
        goIndex labels (closest x labels) else bg), x ∈ bg :: labels := by
    intro x hx
    obtain ⟨q, hq, rfl⟩ := List.mem_map.mp hx
    by_cases hb : (decide (op.brightness ≤ (q.DistanceHSV bg).2.2) ||
        decide (op.saturation ≤ (q.DistanceHSV bg).2.1)) = true
    · rw [if_pos hb]
      exact List.mem_cons_of_mem bg (hkey q (hd q hq)).1
    · rw [if_neg hb]
      exact List.mem_cons_self bg labels
  have hcard : (data.map (fun x =>
      if (decide (op.brightness ≤ (x.DistanceHSV bg).2.2) ||
          decide (op.saturation ≤ (x.DistanceHSV bg).2.1)) then
        goIndex labels (closest x labels) else bg)).toFinset.card
      ≤ labels.length + 1 := by
    calc (data.map _).toFinset.card
        ≤ (bg :: labels).toFinset.card := by
          apply Finset.card_le_card
          intro x hx
          exact List.mem_toFinset.mpr (hmem x (List.mem_toFinset.mp hx))
      _ ≤ (bg :: labels).length := List.toFinset_card_le _
      _ = labels.length + 1 := by simp
  refine ⟨_, _, happ, rfl, by simp, ?_, ?_, hcard, ?_⟩
  · intro x hx
    rcases List.mem_cons.mp (hmem x hx) with h | h
    · exact Or.inl h
    · exact Or.inr h
  · intro i hi
    have hmo : i < (data.map (fun x =>
        if (decide (op.brightness ≤ (x.DistanceHSV bg).2.2) ||
            decide (op.saturation ≤ (x.DistanceHSV bg).2.1)) then
          goIndex labels (closest x labels) else bg)).length := by
      simpa using hi
    have hmf : i < (data.map (fun pix =>
        decide (op.brightness ≤ (pix.DistanceHSV bg).2.2) ||
        decide (op.saturation ≤ (pix.DistanceHSV bg).2.1))).length := by
      simpa using hi
    rw [List.getD_eq_getElem _ _ hmo, List.getD_eq_getElem _ _ hmf]
    simp only [List.getElem_map, List.get_eq_getElem]
    constructor
    · intro hfl
      rw [if_neg (by rw [hfl]; exact Bool.false_ne_true)]
    · intro hfl
      rw [if_pos hfl]
      exact hkey data[i] (hd _ (List.getElem_mem hi))
  · intro hlen
    have h1 : 1 ≤ labels.length := List.length_pos.mpr hne
    omega

/-- C1 witness: black background, one near-white center, a black and a
white data pixel; the output palette size respects foregroundNum = 2. -/
theorem apply_spec_witness :
    ∃ out flag,
      apply [NewPixelRGB 0 0 0, NewPixelRGB 255 255 255] (NewPixelRGB 0 0 0)
        [NewPixelRGB 250 250 250] opK1 = Except.ok out ∧
      getForegroundMask [NewPixelRGB 0 0 0, NewPixelRGB 255 255 255]
        (NewPixelRGB 0 0 0) opK1 = Except.ok flag ∧
      out.toFinset.card ≤ opK1.foregroundNum.toNat := by
  obtain ⟨out, flag, h1, h2, _, _, _, _, h7⟩ :=
    apply_spec [NewPixelRGB 0 0 0, NewPixelRGB 255 255 255] (NewPixelRGB 0 0 0)
      [NewPixelRGB 250 250 250] opK1 (by simp)
      (by
        intro q hq
        simp only [List.mem_cons, List.not_mem_nil, or_false] at hq
        rcases hq with rfl | rfl
        · exact NewPixelRGB_wf _ _ _
        · exact NewPixelRGB_wf _ _ _)
      (by
        intro l hlm
        simp only [List.mem_cons, List.not_mem_nil, or_false] at hlm
        subst hlm
        exact NewPixelRGB_wf _ _ _)
  exact ⟨out, flag, h1, h2, h7 (by decide)⟩

/-! ## k-means: grouping, the update round (C8) and k = 1 (C3) -/

theorem countP_zip_self (l : List ℤ) :
    ((l.zip l).countP (fun x => decide (x.1 ≠ x.2))) = 0 := by
  induction l with
  | nil => rfl
  | cons a l ih =>
      rw [List.zip_cons_cons, List.countP_cons, ih]
      simp

theorem foldl_set_length (l : List (Pixel × ℤ)) :
    ∀ acc : List (List Pixel),
      (l.foldl (fun gs pi =>
        gs.set pi.2.toNat (gs.getD pi.2.toNat [] ++ [pi.1])) acc).length = acc.length := by
  induction l with
  | nil => intro acc; rfl
  | cons a l ih =>
      intro acc
      rw [List.foldl_cons, ih]
      exact List.length_set _ _ _

theorem groupsOf_length (p : List Pixel) (index : List ℤ) (k : ℕ) :
    (groupsOf p index k).length = k := by
  unfold groupsOf
  rw [foldl_set_length]
  exact List.length_replicate _ _

theorem groupsOf_zeros_aux (p : List Pixel) :
    ∀ acc : List Pixel,
      ((p.zip (p.map fun _ => (0 : ℤ))).foldl
        (fun gs pi => gs.set pi.2.toNat (gs.getD pi.2.toNat [] ++ [pi.1]))
        [acc]) = [acc ++ p] := by
  induction p with
  | nil => intro acc; simp
  | cons a p ih =>
      intro acc
      simp only [List.map_cons, List.zip_cons_cons, List.foldl_cons]
      rw [show (([acc].set (0 : ℤ).toNat (([acc].getD (0 : ℤ).toNat []) ++ [a]))) =
          [acc ++ [a]] from by simp]
      rw [ih (acc ++ [a])]
      simp

theorem groupsOf_zeros (p : List Pixel) :
    groupsOf p (p.map fun _ => (0 : ℤ)) 1 = [p] := by
  unfold groupsOf
  have h := groupsOf_zeros_aux p []
  simpa using h

theorem updateLabels_getD (labels : List Pixel) (groups : List (List Pixel))
    (i : ℕ) (hi : i < labels.length) (hg : i < groups.length) :
    (updateLabels labels groups).getD i dPix =
      (match Pixels.Average (groups.getD i []) with
        | .ok (some nl) => nl
        | .ok none => labels.getD i dPix
        | .error _ => labels.getD i dPix) := by
  unfold updateLabels
  have hz : i < (labels.zip groups).length := by
    rw [List.length_zip]; omega
  have hm : i < ((labels.zip groups).map (fun lg =>
      match Pixels.Average lg.2 with
      | .ok (some nl) => nl
      | _ => lg.1)).length := by
    simpa using hz
  rw [List.getD_eq_getElem _ _ hm, List.getD_eq_getElem _ _ hg,
    List.getD_eq_getElem _ _ hi]
  simp only [List.getElem_map, List.getElem_zip]
  cases hA : Pixels.Average groups[i] with
  | error e => rfl
  | ok o =>
      cases o with
      | none => rfl
      | some nl => rfl

/-- C8: in every update round of `kmeans`, a center whose current group is
empty keeps exactly its previous value, while a center with at least one
member is replaced by the RGB average of its members. -/
theorem kmeans_update_round (p labels : List Pixel) (index : List ℤ) (i : ℕ)
    (hi : i < labels.length) :
    ((groupsOf p index labels.length).getD i [] = [] →
      (kmeansRound p labels index).1.getD i dPix = labels.getD i dPix) ∧
    ((groupsOf p index labels.length).getD i [] ≠ [] →
      ∃ a, Pixels.Average ((groupsOf p index labels.length).getD i []) =
          Except.ok (some a) ∧
        (kmeansRound p labels index).1.getD i dPix = a) := by
  have hg : i < (groupsOf p index labels.length).length := by
    rw [groupsOf_length]; exact hi
  have h1 : (kmeansRound p labels index).1 =
      updateLabels labels (groupsOf p index labels.length) := rfl
  constructor
  · intro he
    rw [h1, updateLabels_getD labels _ i hi hg, he]
    rfl
  · intro hne2
    obtain ⟨a, ha, haw⟩ := average_spec_nonempty hne2
    refine ⟨a, ha, ?_⟩
    rw [h1, updateLabels_getD labels _ i hi hg, ha]

/-- C8 witness: one point assigned to center 0; center 1 has an empty group
and keeps its value, center 0 would be replaced by its group average. -/
theorem kmeans_update_round_witness :
    ((groupsOf [dPix] [0] 2).getD 1 [] = [] →
      (kmeansRound [dPix] [NewPixelRGB 1 2 3, NewPixelRGB 4 5 6] [0]).1.getD 1 dPix =
        [NewPixelRGB 1 2 3, NewPixelRGB 4 5 6].getD 1 dPix) ∧
    ((groupsOf [dPix] [0] 2).getD 1 [] ≠ [] →
      ∃ a, Pixels.Average ((groupsOf [dPix] [0] 2).getD 1 []) = Except.ok (some a) ∧
        (kmeansRound [dPix] [NewPixelRGB 1 2 3, NewPixelRGB 4 5 6] [0]).1.getD 1 dPix = a) :=
  kmeans_update_round [dPix] [NewPixelRGB 1 2 3, NewPixelRGB 4 5 6] [0] 1 (by simp)

theorem kmeansLoop_single (p : List Pixel) (l0 : Pixel) (n : ℕ)
    (hne : p ≠ []) (hwf : ∀ q ∈ p, q.wf) (hl : l0.wf) :
    ∃ a, Pixels.Average p = Except.ok (some a) ∧
      kmeansLoop p [l0] (p.map fun q => closest q [l0]) (n + 1) = [a] := by
  obtain ⟨a, ha, haw⟩ := average_spec_nonempty hne
  refine ⟨a, ha, ?_⟩
  have hidx : (p.map fun q => closest q [l0]) = p.map (fun _ => (0 : ℤ)) :=
    List.map_congr_left (fun q hq => closest_single (hwf q hq) hl)
  rw [hidx]
  have hg : groupsOf p (p.map fun _ => (0 : ℤ)) [l0].length = [p] := by
    have h := groupsOf_zeros p
    simpa using h
  have hupd : updateLabels [l0] [p] = [a] := by
    unfold updateLabels
    simp only [List.zip_cons_cons, List.zip_nil_right, List.map_cons, List.map_nil]
    rw [ha]
  have hni : p.map (fun pix => closest pix [a]) = p.map (fun _ => (0 : ℤ)) :=
    List.map_congr_left (fun q hq => closest_single (hwf q hq) haw)
  have hround : kmeansRound p [l0] (p.map fun _ => (0 : ℤ)) =
      ([a], p.map fun _ => (0 : ℤ), 0) := by
    show (updateLabels [l0] (groupsOf p (p.map fun _ => (0 : ℤ)) [l0].length),
      p.map (fun pix => closest pix
        (updateLabels [l0] (groupsOf p (p.map fun _ => (0 : ℤ)) [l0].length))),
      ((p.map (fun pix => closest pix
          (updateLabels [l0] (groupsOf p (p.map fun _ => (0 : ℤ)) [l0].length)))).zip
        (p.map fun _ => (0 : ℤ))).countP (fun x => decide (x.1 ≠ x.2))) =
      ([a], p.map fun _ => (0 : ℤ), 0)
    rw [hg, hupd, hni, countP_zip_self]
  rw [show kmeansLoop p [l0] (p.map fun _ => (0 : ℤ)) (n + 1) =
      (if (kmeansRound p [l0] (p.map fun _ => (0 : ℤ))).2.2 = 0 then
        (kmeansRound p [l0] (p.map fun _ => (0 : ℤ))).1
      else kmeansLoop p (kmeansRound p [l0] (p.map fun _ => (0 : ℤ))).1
        (kmeansRound p [l0] (p.map fun _ => (0 : ℤ))).2.1 n) from rfl]
  rw [hround]
  simp

/-- C3: with k = 1 (ForegroundNum = 2) and at least one iteration, `kmeans`
returns the single center `Average` of the whole non-empty input set,
regardless of the value of the single initial center. -/
theorem kmeans_k1_avg (op : Opt) (p : List Pixel) (l0 : Pixel)
    (hk : op.foregroundNum = 2) (hitr : 1 ≤ op.kMeansIterations)
    (hne : p ≠ []) (hwf : ∀ q ∈ p, q.wf) (hl : l0.wf) :
    ∃ a, Pixels.Average p = Except.ok (some a) ∧
      kmeansLoop p [l0] (p.map fun q => closest q [l0])
        op.kMeansIterations.toNat = [a] ∧
      kmeans p op = Except.ok [a] := by
  obtain ⟨n, hn⟩ : ∃ n, op.kMeansIterations.toNat = n + 1 := by
    have h1 : 1 ≤ op.kMeansIterations.toNat := by omega
    exact ⟨op.kMeansIterations.toNat - 1, by omega⟩
  obtain ⟨a, ha, hloop⟩ := kmeansLoop_single p l0 n hne hwf hl
  refine ⟨a, ha, by rw [hn]; exact hloop, ?_⟩
  unfold kmeans
  rw [hk]
  rw [show (2 : ℤ) - 1 = 1 from by norm_num]
  have hinit : initLabels 1 = [NewPixelHSV 0 1 1] := by
    unfold initLabels
    rw [show (1 : ℤ).toNat = 1 from rfl, show List.range 1 = [0] from rfl]
    norm_num
  show Except.ok (kmeansLoop p (initLabels 1)
      (List.map (fun pix => closest pix (initLabels 1)) p)
      op.kMeansIterations.toNat) = Except.ok [a]
  rw [hinit, hn]
  obtain ⟨a2, ha2, hloop2⟩ :=
    kmeansLoop_single p (NewPixelHSV 0 1 1) n hne hwf (NewPixelHSV_wf 0 1 1)
  rw [hloop2]
  rw [ha] at ha2
  simp only [Except.ok.injEq, Option.some.injEq] at ha2
  rw [ha2]

/-- C3 witness: a two-pixel buffer with ForegroundNum = 2 collapses to its
average whatever the initial center is. -/
theorem kmeans_k1_avg_witness :
    ∃ a, Pixels.Average [NewPixelRGB 10 20 30, NewPixelRGB 20 30 40] =
        Except.ok (some a) ∧
      kmeansLoop [NewPixelRGB 10 20 30, NewPixelRGB 20 30 40] [NewPixelRGB 7 7 7]
        ([NewPixelRGB 10 20 30, NewPixelRGB 20 30 40].map
          (fun q => closest q [NewPixelRGB 7 7 7]))
        opK1.kMeansIterations.toNat = [a] ∧
      kmeans [NewPixelRGB 10 20 30, NewPixelRGB 20 30 40] opK1 = Except.ok [a] :=
  kmeans_k1_avg opK1 [NewPixelRGB 10 20 30, NewPixelRGB 20 30 40] (NewPixelRGB 7 7 7)
    rfl (by decide) (by simp)
    (by
      intro q hq
      simp only [List.mem_cons, List.not_mem_nil, or_false] at hq
      rcases hq with rfl | rfl
      · exact NewPixelRGB_wf _ _ _
      · exact NewPixelRGB_wf _ _ _)
    (NewPixelRGB_wf 7 7 7)

/-! ## C6 (corrected): the column-major round trip -/

theorem flatMapRange_length {α : Type} (cols rows : ℕ) (f : ℕ → ℕ → α) :
    ((List.range cols).flatMap (fun c => (List.range rows).map (f c))).length =
      cols * rows := by
  induction cols with
  | zero => simp
  | succ n ih =>
      rw [List.range_succ, List.flatMap_append]
      simp only [List.flatMap_cons, List.flatMap_nil, List.append_nil,
        List.length_append, ih, List.length_map, List.length_range]
      ring

theorem flatMapRange_getD {α : Type} (rows : ℕ) (f : ℕ → ℕ → α) (d : α)
    (c r : ℕ) (hr : r < rows) :
    ∀ cols, c < cols →
      ((List.range cols).flatMap (fun col => (List.range rows).map (f col))).getD
        (c * rows + r) d = f c r := by
  intro cols
  induction cols with
  | zero => intro h; omega
  | succ n ih =>
      intro hc
      rw [List.range_succ, List.flatMap_append]
      by_cases hcn : c < n
      · rw [List.getD_append]
        · exact ih hcn
        · rw [flatMapRange_length]
          calc c * rows + r < c * rows + rows := by omega
            _ = (c + 1) * rows := by ring
            _ ≤ n * rows := Nat.mul_le_mul_right rows hcn
      · have hceq : c = n := by omega
        subst hceq
        rw [List.getD_append_right]
        · rw [flatMapRange_length]
          simp only [List.flatMap_cons, List.flatMap_nil, List.append_nil,
            Nat.add_sub_cancel_left]
          have hm : r < ((List.range rows).map (f c)).length := by
            simpa using hr
          rw [List.getD_eq_getElem _ _ hm]
          simp
        · rw [flatMapRange_length]
          omega

/-- C6 amended: rebuilding the buffer with `toImage` replays the same
column-major-then-row traversal, so at every coordinate the output pixel
holds exactly the R, G, B channels of the RGBA-converted source pixel — but
with alpha forced to 255, so the round trip is exact only up to alpha (an
RGBA source pixel with alpha ≠ 255 is not reproduced verbatim). -/
theorem toImage_roundtrip_rgb (img : GoImage) (l : List (Option Pixel))
    (hconv : convertPixels img = Except.ok l) (c r : ℕ) (hc : c < img.cols)
    (hr : r < img.rows) (rgba : RGBA)
    (hok : convertColor (img.at_ c r) = Except.ok rgba) :
    Pixels.ToImage l img.cols img.rows c r =
      ⟨rgba.R % 256, rgba.G % 256, rgba.B % 256, 255⟩ := by
  have hl : l = (List.range img.cols).flatMap
      (fun col => (List.range img.rows).map (fun row => NewPixel (img.at_ col row))) := by
    have h0 := hconv
    unfold convertPixels at h0
    exact ((Except.ok.injEq _ _).mp h0).symm
  unfold Pixels.ToImage
  rw [hl, flatMapRange_getD img.rows _ none c r hr img.cols hc]
  rw [show NewPixel (img.at_ c r) = some (NewPixelRGB rgba.R rgba.G rgba.B) from by
    unfold NewPixel
    rw [hok]]
  rfl

/-- C6 witness: a 1×2 fully opaque image round-trips exactly. -/
theorem toImage_roundtrip_rgb_witness :
    Pixels.ToImage
      [NewPixel (GoColor.rgba 40 50 60 255), NewPixel (GoColor.rgba 41 50 60 255)]
      1 2 0 1 = ⟨41 % 256, 50 % 256, 60 % 256, 255⟩ :=
  toImage_roundtrip_rgb imgTwo
    [NewPixel (GoColor.rgba 40 50 60 255), NewPixel (GoColor.rgba 41 50 60 255)]
    rfl 0 1 (by decide) (by decide) ⟨41, 50, 60, 255⟩ rfl

/-- C6 counterexample: a 1×1 image whose RGBA pixel has alpha 7 converts to
(10,20,30,7), but the reconstructed image holds (10,20,30,255) at that
coordinate — not identical to the source after RGBA conversion. -/
theorem toImage_roundtrip_alpha_ctex :
    convertColor (imgAlpha.at_ 0 0) = Except.ok ⟨10, 20, 30, 7⟩ ∧
    convertPixels imgAlpha = Except.ok [some (NewPixelRGB 10 20 30)] ∧
    Pixels.ToImage [some (NewPixelRGB 10 20 30)] 1 1 0 0 = ⟨10, 20, 30, 255⟩ ∧
    (⟨10, 20, 30, 255⟩ : RGBA) ≠ ⟨10, 20, 30, 7⟩ := by
  refine ⟨rfl, rfl, rfl, ?_⟩
  intro h
  exact absurd (congrArg RGBA.A h) (by decide)
